import Mathlib

/-!
Verification development for the sticker-maker native mask kernels.

The C sources under src/ contain three numeric kernels, each present in two
platform copies:

- apply_sticker_mask_native (src/src/native/mask_processor.c and
  src/ios/Classes/mask_processor.c): the two copies are line-for-line
  identical, so a single Lean definition embeds both.
- smooth_mask_native: the two copies are identical up to the allocator used
  for the scratch buffer (malloc vs aligned_malloc); a single Lean definition
  embeds both, with the allocation outcome made an explicit boolean input.
- expand_mask_native: the two copies genuinely differ.  The
  src/src/native copy always uses the clamped-window Euclidean-disk scan;
  the ios/Classes copy special-cases border_width = 0 (raw memcpy), uses a
  precomputed flat-offset kernel for border_width <= 3, and an iterative
  8-connected dilation for larger radii.  Both are embedded, as
  expand_mask_native and expand_mask_ios.

Conventions of the shallow embedding:

- C double arithmetic is embedded as exact rational arithmetic over Rat.
- Buffers indexed by pointers are embedded either as total functions from
  Nat (flat row-major index y*width+x, exactly as the C indexes them) when
  every access of the modelled code is in bounds, or as List Rat with
  explicitly checked accesses (returning Option, none = out-of-bounds
  access) where bounds are part of what is being verified.
- A C loop that writes each cell of the output exactly once, from data that
  does not depend on previously written cells, is embedded as the pointwise
  function it computes; a loop whose iterations interact (the iterative
  dilation of the ios copy) is embedded as a fold in the Option monad that
  mirrors the statement order of the C body, including the left-to-right
  short-circuit evaluation of the boundary-row neighbor tests.
- The C round function is embedded as Mathlib round; the two agree on the
  non-negative arguments produced by the transition band.
- Machine int arithmetic is embedded as Int; truncating C division and
  remainder on possibly negative values are Int.tdiv and Int.tmod.
-/

/-- Return codes of the native functions, from mask_processor.h. -/
inductive MaskProcessorResult where
  | SUCCESS
  | ERROR_INVALID_PARAMS
  | ERROR_MEMORY
  | ERROR_PROCESSING
deriving DecidableEq, Repr

/-- RGB color triple, from mask_processor.h. -/
structure RGBColor where
  r : ℕ
  g : ℕ
  b : ℕ
deriving DecidableEq, Repr

/-- One RGBA pixel: the four bytes pixels[4i .. 4i+3] of the interleaved
pixel buffer. -/
structure Pixel where
  r : ℕ
  g : ℕ
  b : ℕ
  a : ℕ
deriving DecidableEq, Repr

/-- THRESHOLD constant of mask_processor.c. -/
def THRESHOLD : ℚ := 1 / 2

/-- THRESHOLD_HIGH constant of mask_processor.c. -/
def THRESHOLD_HIGH : ℚ := THRESHOLD + 1 / 20

/-- THRESHOLD_LOW constant of mask_processor.c. -/
def THRESHOLD_LOW : ℚ := THRESHOLD - 1 / 20

/-- THRESHOLD_RANGE constant of mask_processor.c. -/
def THRESHOLD_RANGE : ℚ := 1 / 10

/-- clamp_int of mask_processor.c. -/
def clamp_int (value min max : ℤ) : ℤ :=
  if value < min then min else if max < value then max else value

/-- Read of a row-major mask grid at column x, row y, exactly the C
expression mask[y * width + x]. -/
def mget (mask : ℕ → ℚ) (w x y : ℤ) : ℚ := mask (y * w + x).toNat

/-- The n integers a, a+1, ..., a+n-1. -/
def intRangeAux (a : ℤ) : ℕ → List ℤ
  | 0 => []
  | n + 1 => a :: intRangeAux (a + 1) n

/-- The list of integers a, a+1, ..., b-1; the index set of a C loop
for (i = a; i < b; i++). -/
def intRange (a b : ℤ) : List ℤ := intRangeAux a (b - a).toNat

/-- Loop body of apply_sticker_mask_native for one pixel: mask_value is
mask[i], expanded_mask_value the already-resolved expanded value, and the
result the four bytes of pixel i after the iteration. -/
def compositePixel (p : Pixel) (mask_value expanded_mask_value : ℚ)
    (add_border : Bool) (border_color : RGBColor) : Pixel :=
  if THRESHOLD_HIGH < mask_value then
    { p with a := 255 }
  else if mask_value < THRESHOLD_LOW then
    if add_border = true ∧ THRESHOLD < expanded_mask_value then
      { r := border_color.r, g := border_color.g, b := border_color.b, a := 255 }
    else
      { p with a := 0 }
  else
    { p with a := (clamp_int (round ((mask_value - THRESHOLD_LOW) / THRESHOLD_RANGE * 255))
        0 255).toNat }

/-- apply_sticker_mask_native of mask_processor.c (identical in both platform
copies).  The pixel buffer is a function from flat index to Pixel; the loop
writes pixel i from mask[i] and expanded_mask[i] only, so it is embedded
pointwise.  A NULL expanded_mask pointer is embedded as none, in which case
the expanded value falls back to the mask value, as in the C conditional. -/
def apply_sticker_mask_native (pixels : ℕ → Pixel) (mask : ℕ → ℚ) (width height : ℤ)
    (add_border : Bool) (border_color : RGBColor) (border_width : ℤ)
    (expanded_mask : Option (ℕ → ℚ)) : MaskProcessorResult × (ℕ → Pixel) :=
  if width ≤ 0 ∨ height ≤ 0 then
    (.ERROR_INVALID_PARAMS, pixels)
  else
    (.SUCCESS, fun i =>
      if (i : ℤ) < width * height then
        compositePixel (pixels i) (mask i) ((expanded_mask.getD mask) i)
          add_border border_color
      else pixels i)

/-- In-bounds samples of a 1-dimensional box window: the values v n for
n = c - half .. c + half with 0 <= n < limit, in loop order.  This is the
list of terms accumulated into sum by the inner kernel loops of
smooth_mask_native; its length is the count those loops compute. -/
def windowSamples (v : ℤ → ℚ) (c half limit : ℤ) : List ℚ :=
  (intRange (c - half) (c + half + 1)).filterMap
    (fun n => if 0 ≤ n ∧ n < limit then some (v n) else none)

/-- sum / count of one window of smooth_mask_native. -/
def boxAvg (v : ℤ → ℚ) (c half limit : ℤ) : ℚ :=
  (windowSamples v c half limit).sum / ((windowSamples v c half limit).length : ℚ)

/-- Horizontal pass of smooth_mask_native: temp[y*width+x]. -/
def hPass (mask : ℕ → ℚ) (w half x y : ℤ) : ℚ :=
  boxAvg (fun nx => mget mask w nx y) x half w

/-- Vertical pass of smooth_mask_native, reading the horizontal pass. -/
def vPass (temp : ℤ → ℤ → ℚ) (h half x y : ℤ) : ℚ :=
  boxAvg (fun ny => temp x ny) y half h

/-- smooth_mask_native of mask_processor.c (both platform copies; they differ
only in the allocator used for the temp buffer).  allocOk is the outcome of
that scratch allocation.  Each pass writes every cell exactly once from the
previous grid, so both passes are embedded pointwise. -/
def smooth_mask_native (mask output : ℕ → ℚ) (width height kernel_size : ℤ)
    (allocOk : Bool) : MaskProcessorResult × (ℕ → ℚ) :=
  if width ≤ 0 ∨ height ≤ 0 ∨ kernel_size ≤ 0 then
    (.ERROR_INVALID_PARAMS, output)
  else if kernel_size ≤ 1 then
    (.SUCCESS, fun i => if (i : ℤ) < width * height then mask i else output i)
  else if allocOk = false then
    (.ERROR_MEMORY, output)
  else
    (.SUCCESS, fun i =>
      if (i : ℤ) < width * height then
        vPass (fun x y => hPass mask width (kernel_size / 2) x y) height
          (kernel_size / 2) ((i : ℤ) % width) ((i : ℤ) / width)
      else output i)

/-- Whether the scan loops of the src/src/native expand_mask_native write
cell (nx, ny): some foreground cell (x, y) has (nx, ny) inside its clamped
window and within squared distance border_width * border_width.  The writes
all store 1.0 and never read output, so the loop nest is embedded as this
per-cell test. -/
def expandHit (mask : ℕ → ℚ) (w h bw nx ny : ℤ) : Bool :=
  (intRange 0 h).any fun y => (intRange 0 w).any fun x =>
    decide (THRESHOLD < mget mask w x y) &&
    decide (clamp_int (y - bw) 0 (h - 1) ≤ ny) &&
    decide (ny ≤ clamp_int (y + bw) 0 (h - 1)) &&
    decide (clamp_int (x - bw) 0 (w - 1) ≤ nx) &&
    decide (nx ≤ clamp_int (x + bw) 0 (w - 1)) &&
    decide ((nx - x) * (nx - x) + (ny - y) * (ny - y) ≤ bw * bw)

/-- expand_mask_native of src/src/native/mask_processor.c: output is zeroed
by memset and the scan loops then set the hit cells to 1.0. -/
def expand_mask_native (mask output : ℕ → ℚ) (width height border_width : ℤ) :
    MaskProcessorResult × (ℕ → ℚ) :=
  if width ≤ 0 ∨ height ≤ 0 ∨ border_width < 0 then
    (.ERROR_INVALID_PARAMS, output)
  else
    (.SUCCESS, fun i =>
      if (i : ℤ) < width * height then
        (if expandHit mask width height border_width ((i : ℤ) % width) ((i : ℤ) / width)
          then 1 else 0)
      else output i)

/-- Specification predicate of the Euclidean-disk dilation: some in-bounds
foreground cell (mask value above 0.5) lies within Euclidean distance bw of
(cx, cy), stated on squared distances. -/
def foregroundNear (mask : ℕ → ℚ) (w h bw cx cy : ℤ) : Prop :=
  ∃ fx ∈ Finset.Ico (0 : ℤ) w, ∃ fy ∈ Finset.Ico (0 : ℤ) h,
    THRESHOLD < mget mask w fx fy ∧ (fx - cx) ^ 2 + (fy - cy) ^ 2 ≤ bw ^ 2

instance (mask : ℕ → ℚ) (w h bw cx cy : ℤ) : Decidable (foregroundNear mask w h bw cx cy) := by
  unfold foregroundNear
  infer_instance

/-- The 3 x 3 mask that is zero except for the center cell, which is 1.0. -/
def mask3 : ℕ → ℚ := fun i => if i = 4 then 1 else 0

/-- The plus-shaped 3 x 3 pattern: center and its four orthogonal neighbors
are 1.0, the corners 0.0. -/
def plusPattern : ℕ → ℚ := fun i => if i = 1 ∨ i = 3 ∨ i = 4 ∨ i = 5 ∨ i = 7 then 1 else 0

/-!
Checked model of the ios/Classes copy of expand_mask_native.  Buffers are
List Rat; every array access goes through an explicit bounds check and the
whole computation lives in the Option monad, none meaning that the C code
would have accessed memory outside a caller buffer or the scratch buffer.
-/

/-- Checked read buf[i]. -/
def lgetI (buf : List ℚ) (i : ℤ) : Option ℚ :=
  if h : 0 ≤ i ∧ i < (buf.length : ℤ) then some (buf.get ⟨i.toNat, by omega⟩) else none

/-- Checked write buf[i] = v. -/
def lsetI (buf : List ℚ) (i : ℤ) (v : ℚ) : Option (List ℚ) :=
  if 0 ≤ i ∧ i < (buf.length : ℤ) then some (buf.set i.toNat v) else none

/-- memcpy(dst, src, n * sizeof(double)). -/
def memcpyN (dst src : List ℚ) (n : ℤ) : Option (List ℚ) :=
  if 0 ≤ n ∧ n ≤ (dst.length : ℤ) ∧ n ≤ (src.length : ℤ) then
    some (src.take n.toNat ++ dst.drop n.toNat)
  else none

/-- memset(dst, 0, n * sizeof(double)). -/
def memsetZero (dst : List ℚ) (n : ℤ) : Option (List ℚ) :=
  if 0 ≤ n ∧ n ≤ (dst.length : ℤ) then
    some (List.replicate n.toNat 0 ++ dst.drop n.toNat)
  else none

/-- Checked evaluation of the C test buf[i] > 0.0. -/
def posAt (buf : List ℚ) (i : ℤ) : Option Bool :=
  (lgetI buf i).map (fun v => decide (0 < v))

/-- Short-circuit disjunction: the right operand is not evaluated (and in
particular cannot fault) when the left one is true, as for the C operator. -/
def sOr (a b : Option Bool) : Option Bool := do
  if (← a) then pure true else b

/-- Guarded read c && r: r is evaluated only when the pure condition c
holds, as for the C operator. -/
def sGuard (c : Prop) [Decidable c] (r : Option Bool) : Option Bool :=
  if c then r else pure false

/-- Flat offsets dy * width + dx of the precomputed circular kernel of the
ios copy, for all (dx, dy) with dx*dx + dy*dy <= border_width^2, in the
order the C loops push them. -/
def kernelOffsets (w bw : ℤ) : List ℤ :=
  (intRange (-bw) (bw + 1)).flatMap (fun dy =>
    (intRange (-bw) (bw + 1)).filterMap (fun dx =>
      if dx * dx + dy * dy ≤ bw * bw then some (dy * w + dx) else none))

/-- One iteration of the first pass of the iterative branch: if mask[i] is
foreground, set output[i] = 1.0. -/
def markStep (mask : List ℚ) (out : List ℚ) (i : ℤ) : Option (List ℚ) := do
  let mv ← lgetI mask i
  if THRESHOLD < mv then lsetI out i 1 else pure out

/-- First pass of the iterative branch: mark all foreground cells. -/
def markForeground (mask : List ℚ) (n : ℤ) (out : List ℚ) : Option (List ℚ) :=
  (intRange 0 n).foldlM (markStep mask) out

/-- Neighbor test of the top-row handler (y = 0) at column x, with the C
left-to-right short-circuit order. -/
def topCond (temp : List ℚ) (w x : ℤ) : Option Bool :=
  sOr (sGuard (0 < x) (posAt temp (x - 1)))
    (sOr (sGuard (x < w - 1) (posAt temp (x + 1)))
      (sOr (posAt temp (w + x))
        (sOr (sGuard (0 < x) (posAt temp (w + x - 1)))
          (sGuard (x < w - 1) (posAt temp (w + x + 1))))))

/-- Neighbor test of the bottom-row handler at flat index bidx, column x. -/
def botCond (temp : List ℚ) (w bidx x : ℤ) : Option Bool :=
  sOr (sGuard (0 < x) (posAt temp (bidx - 1)))
    (sOr (sGuard (x < w - 1) (posAt temp (bidx + 1)))
      (sOr (posAt temp (bidx - w))
        (sOr (sGuard (0 < x) (posAt temp (bidx - w - 1)))
          (sGuard (x < w - 1) (posAt temp (bidx - w + 1))))))

/-- Neighbor test of the left-column handler at flat index lidx. -/
def leftCond (temp : List ℚ) (w lidx : ℤ) : Option Bool :=
  sOr (posAt temp (lidx - w))
    (sOr (posAt temp (lidx - w + 1))
      (sOr (posAt temp (lidx + 1))
        (sOr (posAt temp (lidx + w))
          (posAt temp (lidx + w + 1)))))

/-- Neighbor test of the right-column handler at flat index ridx. -/
def rightCond (temp : List ℚ) (w ridx : ℤ) : Option Bool :=
  sOr (posAt temp (ridx - w - 1))
    (sOr (posAt temp (ridx - w))
      (sOr (posAt temp (ridx - 1))
        (sOr (posAt temp (ridx + w - 1))
          (posAt temp (ridx + w)))))

/-- One round of the 8-connected dilation of the ios iterative branch:
snapshot the output into the scratch buffer, then grow interior cells,
top and bottom rows, and left and right columns, in the C statement
order. -/
def dilateOnce (w h : ℤ) (out : List ℚ) : Option (List ℚ) := do
  let temp ← memcpyN (List.replicate (w * h).toNat 0) out (w * h)
  let out ← (intRange 1 (h - 1)).foldlM (fun out y =>
    (intRange 1 (w - 1)).foldlM (fun out x => do
      let idx := y * w + x
      let tv ← lgetI temp idx
      if tv = 0 then do
        let c ← sOr (posAt temp (idx - w - 1))
          (sOr (posAt temp (idx - w))
            (sOr (posAt temp (idx - w + 1))
              (sOr (posAt temp (idx - 1))
                (sOr (posAt temp (idx + 1))
                  (sOr (posAt temp (idx + w - 1))
                    (sOr (posAt temp (idx + w))
                      (posAt temp (idx + w + 1))))))))
        if c then lsetI out idx 1 else pure out
      else pure out) out) out
  let out ← (intRange 0 w).foldlM (fun out x => do
    let tv ← lgetI temp x
    let out ← (do
      if tv = 0 then do
        let c ← topCond temp w x
        if c then lsetI out x 1 else pure out
      else pure out)
    let bidx := (h - 1) * w + x
    let tv2 ← lgetI temp bidx
    if tv2 = 0 then do
      let c ← botCond temp w bidx x
      if c then lsetI out bidx 1 else pure out
    else pure out) out
  (intRange 1 (h - 1)).foldlM (fun out y => do
    let lidx := y * w
    let tv ← lgetI temp lidx
    let out ← (do
      if tv = 0 then do
        let c ← leftCond temp w lidx
        if c then lsetI out lidx 1 else pure out
      else pure out)
    let ridx := y * w + w - 1
    let tv2 ← lgetI temp ridx
    if tv2 = 0 then do
      let c ← rightCond temp w ridx
      if c then lsetI out ridx 1 else pure out
    else pure out) out

/-- expand_mask_native of src/ios/Classes/mask_processor.c.  allocOk is the
outcome of the aligned_malloc of the scratch buffer in the iterative branch
(the only allocation the function performs). -/
def expand_mask_ios (mask output : List ℚ) (width height border_width : ℤ)
    (allocOk : Bool) : Option (MaskProcessorResult × List ℚ) :=
  if width ≤ 0 ∨ height ≤ 0 ∨ border_width < 0 then
    some (.ERROR_INVALID_PARAMS, output)
  else if border_width = 0 then
    (memcpyN output mask (width * height)).map (fun o => (.SUCCESS, o))
  else do
    let out0 ← memsetZero output (width * height)
    if border_width ≤ 3 then
      let offs := kernelOffsets width border_width
      let res ← (intRange 0 height).foldlM (fun out y =>
        (intRange 0 width).foldlM (fun out x => do
          let mv ← lgetI mask (y * width + x)
          if THRESHOLD < mv then
            offs.foldlM (fun out k =>
              let ti := y * width + x + k
              let ty := ti.tdiv width
              let tx := ti.tmod width
              if 0 ≤ ty ∧ ty < height ∧ 0 ≤ tx ∧ tx < width then
                lsetI out ti 1
              else pure out) out
          else pure out) out) out0
      pure (.SUCCESS, res)
    else do
      let res ← markForeground mask (width * height) out0
      if allocOk = false then
        pure (.ERROR_MEMORY, res)
      else do
        let final ← (intRange 0 border_width).foldlM
          (fun out _iter => dilateOnce width height out) res
        pure (.SUCCESS, final)

/-!
Helper lemmas.
-/

lemma mem_intRangeAux {z : ℤ} : ∀ (n : ℕ) (a : ℤ), z ∈ intRangeAux a n ↔ a ≤ z ∧ z < a + n := by
  intro n
  induction n with
  | zero => intro a; simp [intRangeAux]
  | succ k ih =>
    intro a
    simp only [intRangeAux, List.mem_cons, ih (a + 1)]
    omega

lemma mem_intRange {a b z : ℤ} : z ∈ intRange a b ↔ a ≤ z ∧ z < b := by
  unfold intRange
  rw [mem_intRangeAux]
  omega

lemma intRange_eq_nil {a b : ℤ} (h : b ≤ a) : intRange a b = [] := by
  unfold intRange
  have hz : (b - a).toNat = 0 := by omega
  rw [hz]
  rfl

lemma intRange_eq_cons {a b : ℤ} (h : a < b) : intRange a b = a :: intRange (a + 1) b := by
  unfold intRange
  have hs : (b - a).toNat = (b - (a + 1)).toNat + 1 := by omega
  rw [hs]
  rfl

lemma TL_lt_TH : THRESHOLD_LOW < THRESHOLD_HIGH := by
  norm_num [THRESHOLD_LOW, THRESHOLD_HIGH, THRESHOLD]

lemma TL_lt_T : THRESHOLD_LOW < THRESHOLD := by
  norm_num [THRESHOLD_LOW, THRESHOLD]

lemma compositePixel_r (p : Pixel) (m e : ℚ) (ab : Bool) (bc : RGBColor) :
    (compositePixel p m e ab bc).r =
      if m < THRESHOLD_LOW ∧ ab = true ∧ THRESHOLD < e then bc.r else p.r := by
  unfold compositePixel
  by_cases h1 : THRESHOLD_HIGH < m
  · have hn : ¬ (m < THRESHOLD_LOW ∧ ab = true ∧ THRESHOLD < e) := by
      rintro ⟨hm, -⟩
      exact absurd (hm.trans (TL_lt_TH.trans h1)) (lt_irrefl m)
    rw [if_pos h1, if_neg hn]
  · rw [if_neg h1]
    by_cases h2 : m < THRESHOLD_LOW
    · rw [if_pos h2]
      by_cases h3 : ab = true ∧ THRESHOLD < e
      · rw [if_pos h3, if_pos ⟨h2, h3⟩]
      · rw [if_neg h3, if_neg (by tauto)]
    · rw [if_neg h2, if_neg (by tauto)]

lemma compositePixel_a (p : Pixel) (m e : ℚ) (ab : Bool) (bc : RGBColor) :
    (compositePixel p m e ab bc).a =
      if THRESHOLD_HIGH < m then 255
      else if m < THRESHOLD_LOW then (if ab = true ∧ THRESHOLD < e then 255 else 0)
      else (clamp_int (round ((m - THRESHOLD_LOW) / THRESHOLD_RANGE * 255)) 0 255).toNat := by
  unfold compositePixel
  split_ifs <;> rfl

lemma apply_pixel_in_range (pixels : ℕ → Pixel) (mask : ℕ → ℚ) (w h : ℤ) (ab : Bool)
    (bc : RGBColor) (bw : ℤ) (em : Option (ℕ → ℚ)) (i : ℕ)
    (hw : 0 < w) (hh : 0 < h) (hi : (i : ℤ) < w * h) :
    (apply_sticker_mask_native pixels mask w h ab bc bw em).2 i =
      compositePixel (pixels i) (mask i) ((em.getD mask) i) ab bc := by
  unfold apply_sticker_mask_native
  rw [if_neg (by omega : ¬ (w ≤ 0 ∨ h ≤ 0))]
  simp only
  rw [if_pos hi]

lemma compositePixel_g (p : Pixel) (m e : ℚ) (ab : Bool) (bc : RGBColor) :
    (compositePixel p m e ab bc).g =
      if m < THRESHOLD_LOW ∧ ab = true ∧ THRESHOLD < e then bc.g else p.g := by
  unfold compositePixel
  by_cases h1 : THRESHOLD_HIGH < m
  · have hn : ¬ (m < THRESHOLD_LOW ∧ ab = true ∧ THRESHOLD < e) := by
      rintro ⟨hm, -⟩
      exact absurd (hm.trans (TL_lt_TH.trans h1)) (lt_irrefl m)
    rw [if_pos h1, if_neg hn]
  · rw [if_neg h1]
    by_cases h2 : m < THRESHOLD_LOW
    · rw [if_pos h2]
      by_cases h3 : ab = true ∧ THRESHOLD < e
      · rw [if_pos h3, if_pos ⟨h2, h3⟩]
      · rw [if_neg h3, if_neg (by tauto)]
    · rw [if_neg h2, if_neg (by tauto)]

lemma compositePixel_b (p : Pixel) (m e : ℚ) (ab : Bool) (bc : RGBColor) :
    (compositePixel p m e ab bc).b =
      if m < THRESHOLD_LOW ∧ ab = true ∧ THRESHOLD < e then bc.b else p.b := by
  unfold compositePixel
  by_cases h1 : THRESHOLD_HIGH < m
  · have hn : ¬ (m < THRESHOLD_LOW ∧ ab = true ∧ THRESHOLD < e) := by
      rintro ⟨hm, -⟩
      exact absurd (hm.trans (TL_lt_TH.trans h1)) (lt_irrefl m)
    rw [if_pos h1, if_neg hn]
  · rw [if_neg h1]
    by_cases h2 : m < THRESHOLD_LOW
    · rw [if_pos h2]
      by_cases h3 : ab = true ∧ THRESHOLD < e
      · rw [if_pos h3, if_pos ⟨h2, h3⟩]
      · rw [if_neg h3, if_neg (by tauto)]
    · rw [if_neg h2, if_neg (by tauto)]

lemma clamp_int_le_max {v lo hi : ℤ} (h : lo ≤ hi) : clamp_int v lo hi ≤ hi := by
  unfold clamp_int
  split_ifs <;> omega

lemma clamp_int_mono {v1 v2 lo hi : ℤ} (hlo : lo ≤ hi) (h : v1 ≤ v2) :
    clamp_int v1 lo hi ≤ clamp_int v2 lo hi := by
  unfold clamp_int
  split_ifs <;> omega

lemma clampNat_le_255 (v : ℤ) : (clamp_int v 0 255).toNat ≤ 255 := by
  have h := @clamp_int_le_max v 0 255 (by omega)
  omega

lemma round_mono_q {x y : ℚ} (h : x ≤ y) : round x ≤ round y := by
  rw [round_eq, round_eq]
  exact Int.floor_le_floor (by linarith)

lemma transAlpha_mono {m1 m2 : ℚ} (h : m1 ≤ m2) :
    (clamp_int (round ((m1 - THRESHOLD_LOW) / THRESHOLD_RANGE * 255)) 0 255).toNat ≤
    (clamp_int (round ((m2 - THRESHOLD_LOW) / THRESHOLD_RANGE * 255)) 0 255).toNat := by
  apply Int.toNat_le_toNat
  apply clamp_int_mono (by omega)
  apply round_mono_q
  unfold THRESHOLD_RANGE THRESHOLD_LOW THRESHOLD
  rw [div_mul_eq_mul_div, div_mul_eq_mul_div]
  apply div_le_div_of_nonneg_right ?_ (by norm_num)
  nlinarith

lemma compositePixel_a_inert (p : Pixel) (m e : ℚ) (ab : Bool) (bc : RGBColor)
    (hb : m < THRESHOLD_LOW → ¬ (ab = true ∧ THRESHOLD < e)) :
    (compositePixel p m e ab bc).a =
      if THRESHOLD_HIGH < m then 255
      else if m < THRESHOLD_LOW then 0
      else (clamp_int (round ((m - THRESHOLD_LOW) / THRESHOLD_RANGE * 255)) 0 255).toNat := by
  rw [compositePixel_a]
  by_cases h1 : THRESHOLD_HIGH < m
  · rw [if_pos h1, if_pos h1]
  · rw [if_neg h1, if_neg h1]
    by_cases h2 : m < THRESHOLD_LOW
    · rw [if_pos h2, if_pos h2, if_neg (hb h2)]
    · rw [if_neg h2, if_neg h2]

lemma composite_a_mono_of_inert (p1 p2 : Pixel) (bc : RGBColor) (ab : Bool) (e1 e2 m1 m2 : ℚ)
    (hb1 : m1 < THRESHOLD_LOW → ¬ (ab = true ∧ THRESHOLD < e1))
    (hb2 : m2 < THRESHOLD_LOW → ¬ (ab = true ∧ THRESHOLD < e2))
    (hm : m1 ≤ m2) :
    (compositePixel p1 m1 e1 ab bc).a ≤ (compositePixel p2 m2 e2 ab bc).a := by
  rw [compositePixel_a_inert p1 m1 e1 ab bc hb1, compositePixel_a_inert p2 m2 e2 ab bc hb2]
  by_cases h1 : THRESHOLD_HIGH < m2
  · rw [if_pos h1]
    split_ifs
    · exact le_refl 255
    · exact Nat.zero_le 255
    · exact clampNat_le_255 _
  · rw [if_neg h1]
    have h1l : ¬ THRESHOLD_HIGH < m1 := fun hc => h1 (lt_of_lt_of_le hc hm)
    rw [if_neg h1l]
    by_cases h2 : m1 < THRESHOLD_LOW
    · rw [if_pos h2]
      exact Nat.zero_le _
    · rw [if_neg h2]
      have h2r : ¬ m2 < THRESHOLD_LOW := fun hc => h2 (lt_of_le_of_lt hm hc)
      rw [if_neg h2r]
      exact transAlpha_mono hm

/-!
Claim theorems for the compositor.
-/

unseal Rat.add Rat.mul Rat.sub Rat.inv in
/-- C2 counterexample: with add_border set and an expanded-mask value above
0.5 at the pixel, the alpha written by the compositor is 255 at mask value
2/5 = 0.40 but 0 at the larger mask value 9/20 = 0.45, so the alpha written
for a pixel is not monotonically non-decreasing in the mask value across the
whole domain. -/
theorem composite_alpha_not_monotone_cx :
    ((2 : ℚ) / 5 < 9 / 20) ∧
    (((apply_sticker_mask_native (fun _ => ⟨10, 20, 30, 40⟩) (fun _ => 2 / 5) 1 1 true
        ⟨1, 2, 3⟩ 1 (some (fun _ => 1))).2 0).a = 255) ∧
    (((apply_sticker_mask_native (fun _ => ⟨10, 20, 30, 40⟩) (fun _ => 9 / 20) 1 1 true
        ⟨1, 2, 3⟩ 1 (some (fun _ => 1))).2 0).a = 0) := by
  decide

/-- C2 (amended): for every mask value m with 0.45 <= m <= 0.55 the
compositor writes alpha = clamp(round((m - 0.45) / 0.1 * 255), 0, 255), and
the alpha written is monotonically non-decreasing in the mask value across
the whole domain provided the pixel is not painted as a border pixel, that
is, provided add_border is false or the expanded-mask value at the pixel is
at most 0.5 - in particular always when no expanded mask is supplied, where
the expanded value falls back to the mask value itself. -/
theorem composite_alpha_formula_and_monotone :
    (∀ (p : Pixel) (e : ℚ) (ab : Bool) (bc : RGBColor) (m : ℚ),
        9 / 20 ≤ m → m ≤ 11 / 20 →
        (compositePixel p m e ab bc).a =
          (clamp_int (round ((m - 9 / 20) / (1 / 10) * 255)) 0 255).toNat) ∧
    (∀ (p1 p2 : Pixel) (e : ℚ) (ab : Bool) (bc : RGBColor) (m1 m2 : ℚ),
        (ab = false ∨ e ≤ THRESHOLD) → m1 ≤ m2 →
        (compositePixel p1 m1 e ab bc).a ≤ (compositePixel p2 m2 e ab bc).a) ∧
    (∀ (p1 p2 : Pixel) (ab : Bool) (bc : RGBColor) (m1 m2 : ℚ), m1 ≤ m2 →
        (compositePixel p1 m1 m1 ab bc).a ≤ (compositePixel p2 m2 m2 ab bc).a) := by
  refine ⟨?_, ?_, ?_⟩
  · intro p e ab bc m h1 h2
    rw [compositePixel_a]
    have hTL : THRESHOLD_LOW = 9 / 20 := by norm_num [THRESHOLD_LOW, THRESHOLD]
    have hTH : THRESHOLD_HIGH = 11 / 20 := by norm_num [THRESHOLD_HIGH, THRESHOLD]
    have hTR : THRESHOLD_RANGE = 1 / 10 := by norm_num [THRESHOLD_RANGE]
    rw [if_neg (by rw [hTH]; exact not_lt.mpr h2), if_neg (by rw [hTL]; exact not_lt.mpr h1),
      hTL, hTR]
  · intro p1 p2 e ab bc m1 m2 hb hm
    apply composite_a_mono_of_inert p1 p2 bc ab e e m1 m2 ?_ ?_ hm <;>
      · rintro - ⟨hab, hgt⟩
        rcases hb with hb | hb
        · rw [hb] at hab; exact Bool.false_ne_true hab
        · exact absurd (hb.trans_lt hgt) (lt_irrefl e)
  · intro p1 p2 ab bc m1 m2 hm
    apply composite_a_mono_of_inert p1 p2 bc ab m1 m2 m1 m2 ?_ ?_ hm <;>
      · rintro hlt ⟨-, hgt⟩
        exact absurd ((hlt.trans TL_lt_T).trans hgt) (lt_irrefl _)

unseal Rat.add Rat.mul Rat.sub Rat.inv in
/-- C2 witness: the transition-band formula evaluated at the concrete mask
value 1/2 gives alpha 128, by the amended theorem. -/
theorem composite_alpha_formula_and_monotone_witness :
    ((9 : ℚ) / 20 ≤ 1 / 2) ∧ ((1 : ℚ) / 2 ≤ 11 / 20) ∧
    (compositePixel ⟨9, 9, 9, 9⟩ (1 / 2) (1 / 2) false ⟨0, 0, 0⟩).a = 128 :=
  ⟨by decide, by decide, by
    rw [composite_alpha_formula_and_monotone.1 ⟨9, 9, 9, 9⟩ (1 / 2) false ⟨0, 0, 0⟩ (1 / 2)
      (by decide) (by decide)]
    decide⟩

/-- C3: a pixel whose mask value exceeds THRESHOLD_HIGH = 0.55 gets alpha
exactly 255 and keeps its R, G, B bytes, for every add_border flag, border
color, border_width and expanded mask. -/
theorem composite_foreground_alpha255 (pixels : ℕ → Pixel) (mask : ℕ → ℚ) (w h : ℤ)
    (ab : Bool) (bc : RGBColor) (bw : ℤ) (em : Option (ℕ → ℚ)) (i : ℕ)
    (hw : 0 < w) (hh : 0 < h) (hi : (i : ℤ) < w * h) (hm : THRESHOLD_HIGH < mask i) :
    (apply_sticker_mask_native pixels mask w h ab bc bw em).2 i =
      { pixels i with a := 255 } := by
  rw [apply_pixel_in_range pixels mask w h ab bc bw em i hw hh hi]
  unfold compositePixel
  rw [if_pos hm]

unseal Rat.add Rat.mul Rat.sub Rat.inv in
/-- C3 witness: concrete foreground pixel on a 1 x 1 image, with bordering
requested and an expanded mask supplied. -/
theorem composite_foreground_alpha255_witness :
    (THRESHOLD_HIGH < (1 : ℚ)) ∧
    (apply_sticker_mask_native (fun _ => ⟨10, 20, 30, 40⟩) (fun _ => 1) 1 1 true
        ⟨7, 8, 9⟩ 5 (some (fun _ => 0))).2 0 = ⟨10, 20, 30, 255⟩ :=
  ⟨by decide, composite_foreground_alpha255 (fun _ => ⟨10, 20, 30, 40⟩) (fun _ => 1) 1 1
    true ⟨7, 8, 9⟩ 5 (some (fun _ => 0)) 0 (by decide) (by decide) (by decide) (by decide)⟩

/-- C4: a pixel whose mask value is below THRESHOLD_LOW = 0.45 becomes a
border pixel (RGB overwritten with the border color, alpha 255) when
add_border holds and the effective expanded value exceeds 0.5, and otherwise
becomes transparent background (alpha 0, RGB kept). -/
theorem composite_background_border (pixels : ℕ → Pixel) (mask : ℕ → ℚ) (w h : ℤ)
    (ab : Bool) (bc : RGBColor) (bw : ℤ) (em : Option (ℕ → ℚ)) (i : ℕ)
    (hw : 0 < w) (hh : 0 < h) (hi : (i : ℤ) < w * h) (hm : mask i < THRESHOLD_LOW) :
    (apply_sticker_mask_native pixels mask w h ab bc bw em).2 i =
      (if ab = true ∧ THRESHOLD < (em.getD mask) i
       then { r := bc.r, g := bc.g, b := bc.b, a := 255 }
       else { pixels i with a := 0 }) := by
  rw [apply_pixel_in_range pixels mask w h ab bc bw em i hw hh hi]
  unfold compositePixel
  rw [if_neg (fun hc => absurd (hm.trans (TL_lt_TH.trans hc)) (lt_irrefl _)), if_pos hm]

unseal Rat.add Rat.mul Rat.sub Rat.inv in
/-- C4 witness: concrete background pixel with bordering enabled and an
expanded value of 1, turned into a border pixel. -/
theorem composite_background_border_witness :
    ((0 : ℚ) < THRESHOLD_LOW) ∧
    (apply_sticker_mask_native (fun _ => ⟨10, 20, 30, 40⟩) (fun _ => 0) 1 1 true
        ⟨7, 8, 9⟩ 2 (some (fun _ => 1))).2 0 = ⟨7, 8, 9, 255⟩ :=
  ⟨by decide, by
    rw [composite_background_border (fun _ => ⟨10, 20, 30, 40⟩) (fun _ => 0) 1 1 true
      ⟨7, 8, 9⟩ 2 (some (fun _ => 1)) 0 (by decide) (by decide) (by decide) (by decide)]
    decide⟩

/-- C5: the compositor never mutates the R, G, B bytes of a non-border
pixel - only its alpha - and writes all four bytes exactly for border
pixels (mask below 0.45, add_border set, expanded value above 0.5),
which receive the border color with alpha 255. -/
theorem composite_rgb_preservation (pixels : ℕ → Pixel) (mask : ℕ → ℚ) (w h : ℤ)
    (ab : Bool) (bc : RGBColor) (bw : ℤ) (em : Option (ℕ → ℚ))
    (hw : 0 < w) (hh : 0 < h) :
    ∀ i : ℕ,
      (¬ (mask i < THRESHOLD_LOW ∧ ab = true ∧ THRESHOLD < (em.getD mask) i) →
        ((apply_sticker_mask_native pixels mask w h ab bc bw em).2 i).r = (pixels i).r ∧
        ((apply_sticker_mask_native pixels mask w h ab bc bw em).2 i).g = (pixels i).g ∧
        ((apply_sticker_mask_native pixels mask w h ab bc bw em).2 i).b = (pixels i).b) ∧
      ((mask i < THRESHOLD_LOW ∧ ab = true ∧ THRESHOLD < (em.getD mask) i ∧ (i : ℤ) < w * h) →
        (apply_sticker_mask_native pixels mask w h ab bc bw em).2 i =
          { r := bc.r, g := bc.g, b := bc.b, a := 255 }) := by
  intro i
  constructor
  · intro hnb
    by_cases hi : (i : ℤ) < w * h
    · rw [apply_pixel_in_range pixels mask w h ab bc bw em i hw hh hi,
        compositePixel_r, compositePixel_g, compositePixel_b,
        if_neg hnb, if_neg hnb, if_neg hnb]
      exact ⟨rfl, rfl, rfl⟩
    · unfold apply_sticker_mask_native
      rw [if_neg (by omega : ¬ (w ≤ 0 ∨ h ≤ 0))]
      simp only
      rw [if_neg hi]
      exact ⟨rfl, rfl, rfl⟩
  · rintro ⟨hm, hab, he, hi⟩
    rw [apply_pixel_in_range pixels mask w h ab bc bw em i hw hh hi]
    unfold compositePixel
    rw [if_neg (fun hc => absurd (hm.trans (TL_lt_TH.trans hc)) (lt_irrefl _)), if_pos hm,
      if_pos ⟨hab, he⟩]

unseal Rat.add Rat.mul Rat.sub Rat.inv in
/-- C5 witness: on a concrete 1 x 2 image, the transition pixel keeps its
RGB and the border pixel receives the border color with alpha 255. -/
theorem composite_rgb_preservation_witness :
    (¬ ((1 : ℚ) / 2 < THRESHOLD_LOW ∧ true = true ∧ THRESHOLD < (1 : ℚ))) ∧
    ((apply_sticker_mask_native (fun _ => ⟨10, 20, 30, 40⟩) (fun i => if i = 0 then 1/2 else 0)
        2 1 true ⟨7, 8, 9⟩ 2 (some (fun _ => 1))).2 0).r = 10 ∧
    ((0 : ℚ) < THRESHOLD_LOW ∧ true = true ∧ THRESHOLD < (1 : ℚ) ∧ (1 : ℤ) < 2 * 1) ∧
    (apply_sticker_mask_native (fun _ => ⟨10, 20, 30, 40⟩) (fun i => if i = 0 then 1/2 else 0)
        2 1 true ⟨7, 8, 9⟩ 2 (some (fun _ => 1))).2 1 = ⟨7, 8, 9, 255⟩ := by
  refine ⟨by decide, ?_, by decide, ?_⟩
  · exact ((composite_rgb_preservation (fun _ => ⟨10, 20, 30, 40⟩)
      (fun i => if i = 0 then 1/2 else 0) 2 1 true ⟨7, 8, 9⟩ 2 (some (fun _ => 1))
      (by decide) (by decide) 0).1 (by decide)).1
  · exact (composite_rgb_preservation (fun _ => ⟨10, 20, 30, 40⟩)
      (fun i => if i = 0 then 1/2 else 0) 2 1 true ⟨7, 8, 9⟩ 2 (some (fun _ => 1))
      (by decide) (by decide) 1).2 (by decide)

/-- C10: when no expanded mask is supplied the compositor never writes any
R, G or B byte of any pixel, whatever the add_border flag, border color,
border width, dimensions and mask: the border branch would need both
mask[i] < 0.45 and mask[i] > 0.5, which is impossible. -/
theorem composite_no_expanded_rgb_untouched :
    ∀ (pixels : ℕ → Pixel) (mask : ℕ → ℚ) (w h : ℤ) (ab : Bool) (bc : RGBColor)
      (bw : ℤ) (i : ℕ),
      ((apply_sticker_mask_native pixels mask w h ab bc bw none).2 i).r = (pixels i).r ∧
      ((apply_sticker_mask_native pixels mask w h ab bc bw none).2 i).g = (pixels i).g ∧
      ((apply_sticker_mask_native pixels mask w h ab bc bw none).2 i).b = (pixels i).b := by
  intro pixels mask w h ab bc bw i
  unfold apply_sticker_mask_native
  by_cases hv : w ≤ 0 ∨ h ≤ 0
  · rw [if_pos hv]
    exact ⟨rfl, rfl, rfl⟩
  · rw [if_neg hv]
    simp only [Option.getD]
    by_cases hi : (i : ℤ) < w * h
    · rw [if_pos hi, compositePixel_r, compositePixel_g, compositePixel_b]
      have hnb : ¬ (mask i < THRESHOLD_LOW ∧ ab = true ∧ THRESHOLD < mask i) := by
        rintro ⟨hlt, -, hgt⟩
        exact absurd ((hlt.trans TL_lt_T).trans hgt) (lt_irrefl _)
      rw [if_neg hnb, if_neg hnb, if_neg hnb]
      exact ⟨rfl, rfl, rfl⟩
    · rw [if_neg hi]
      exact ⟨rfl, rfl, rfl⟩

/-!
Helper lemmas for the expand kernels.
-/

lemma abs_le_of_sq_le_sq_int {d bw : ℤ} (hbw : 0 ≤ bw) (h : d ^ 2 ≤ bw ^ 2) :
    -bw ≤ d ∧ d ≤ bw := by
  constructor
  · by_contra hc
    push_neg at hc
    nlinarith [mul_pos (show (0 : ℤ) < -d - bw by omega) (show (0 : ℤ) < -d + bw by omega)]
  · by_contra hc
    push_neg at hc
    nlinarith [mul_pos (show (0 : ℤ) < d - bw by omega) (show (0 : ℤ) < d + bw by omega)]

lemma expandHit_iff_near (mask : ℕ → ℚ) (w h bw nx ny : ℤ)
    (hw : 0 < w) (hh : 0 < h) (hbw : 0 ≤ bw)
    (hnx : 0 ≤ nx) (hnxw : nx < w) (hny : 0 ≤ ny) (hnyh : ny < h) :
    expandHit mask w h bw nx ny = true ↔ foregroundNear mask w h bw nx ny := by
  unfold expandHit foregroundNear
  simp only [List.any_eq_true, Bool.and_eq_true, decide_eq_true_eq, mem_intRange,
    Finset.mem_Ico]
  constructor
  · rintro ⟨y, ⟨hy0, hyh⟩, x, ⟨hx0, hxw⟩, ⟨⟨⟨⟨hfg, hc1⟩, hc2⟩, hc3⟩, hc4⟩, hdist⟩
    exact ⟨x, ⟨hx0, hxw⟩, y, ⟨hy0, hyh⟩, hfg, by nlinarith [hdist]⟩
  · rintro ⟨x, ⟨hx0, hxw⟩, y, ⟨hy0, hyh⟩, hfg, hdist⟩
    have hd1 : (x - nx) ^ 2 ≤ bw ^ 2 := by linarith [sq_nonneg (y - ny)]
    have hd2 : (y - ny) ^ 2 ≤ bw ^ 2 := by linarith [sq_nonneg (x - nx)]
    have hax := abs_le_of_sq_le_sq_int hbw hd1
    have hay := abs_le_of_sq_le_sq_int hbw hd2
    refine ⟨y, ⟨hy0, hyh⟩, x, ⟨hx0, hxw⟩, ⟨⟨⟨⟨hfg, ?_⟩, ?_⟩, ?_⟩, ?_⟩, by nlinarith [hdist]⟩
    · unfold clamp_int; split_ifs <;> omega
    · unfold clamp_int; split_ifs <;> omega
    · unfold clamp_int; split_ifs <;> omega
    · unfold clamp_int; split_ifs <;> omega

lemma foregroundNear_zero (mask : ℕ → ℚ) (w h cx cy : ℤ)
    (hcx0 : 0 ≤ cx) (hcxw : cx < w) (hcy0 : 0 ≤ cy) (hcyh : cy < h) :
    foregroundNear mask w h 0 cx cy ↔ THRESHOLD < mget mask w cx cy := by
  unfold foregroundNear
  simp only [Finset.mem_Ico]
  constructor
  · rintro ⟨fx, hfx, fy, hfy, hfg, hdist⟩
    have hx0 : (fx - cx) ^ 2 = 0 :=
      le_antisymm (by nlinarith [sq_nonneg (fy - cy)]) (sq_nonneg _)
    have hy0 : (fy - cy) ^ 2 = 0 :=
      le_antisymm (by nlinarith [sq_nonneg (fx - cx)]) (sq_nonneg _)
    have hfx2 : fx = cx := by
      have := sq_eq_zero_iff.mp hx0
      omega
    have hfy2 : fy = cy := by
      have := sq_eq_zero_iff.mp hy0
      omega
    rwa [hfx2, hfy2] at hfg
  · intro hfg
    exact ⟨cx, ⟨hcx0, hcxw⟩, cy, ⟨hcy0, hcyh⟩, hfg, by norm_num⟩

/-!
Claim theorems for the expand kernels.
-/

unseal Rat.add Rat.mul Rat.sub Rat.inv in
/-- C1 (amended): the src/src/native expand_mask_native computes exactly the
Euclidean-disk dilation - for border_width > 0, output[c] is 1.0 if and only
if some in-bounds foreground cell lies within squared Euclidean distance
border_width^2 of c, and 0.0 otherwise - and on the 3 x 3 center-only mask
with border_width 1 it produces the plus-shaped pattern.  (The ios copy does
not satisfy this: see the counterexample theorem.) -/
theorem expand_native_euclidean_disk :
    (∀ (mask output : ℕ → ℚ) (w h bw cx cy : ℤ), 0 < w → 0 < h → 0 < bw →
        0 ≤ cx → cx < w → 0 ≤ cy → cy < h →
        (((expand_mask_native mask output w h bw).2 (cy * w + cx).toNat = 1 ↔
            foregroundNear mask w h bw cx cy) ∧
          ((expand_mask_native mask output w h bw).2 (cy * w + cx).toNat = 0 ↔
            ¬ foregroundNear mask w h bw cx cy))) ∧
    (∀ i < 9, (expand_mask_native mask3 (fun _ => 0) 3 3 1).2 i = plusPattern i) := by
  constructor
  · intro mask output w h bw cx cy hw hh hbw hcx0 hcxw hcy0 hcyh
    unfold expand_mask_native
    rw [if_neg (by omega : ¬ (w ≤ 0 ∨ h ≤ 0 ∨ bw < 0))]
    simp only
    have hmul : 0 ≤ cy * w := mul_nonneg hcy0 (by omega)
    have hn : ((cy * w + cx).toNat : ℤ) = cy * w + cx := Int.toNat_of_nonneg (by omega)
    have hlt : ((cy * w + cx).toNat : ℤ) < w * h := by
      rw [hn]
      nlinarith [mul_le_mul_of_nonneg_right (show cy ≤ h - 1 by omega)
        (show (0 : ℤ) ≤ w by omega)]
    rw [if_pos hlt]
    have hmod : ((cy * w + cx).toNat : ℤ) % w = cx := by
      rw [hn, show cy * w + cx = cx + w * cy from by ring, Int.add_mul_emod_self_left]
      exact Int.emod_eq_of_lt hcx0 hcxw
    have hdiv : ((cy * w + cx).toNat : ℤ) / w = cy := by
      rw [hn, show cy * w + cx = cx + cy * w from by ring,
        Int.add_mul_ediv_right _ _ (by omega : w ≠ 0),
        Int.ediv_eq_zero_of_lt hcx0 hcxw]
      omega
    rw [hmod, hdiv]
    have hiff := expandHit_iff_near mask w h bw cx cy hw hh (by omega) hcx0 hcxw hcy0 hcyh
    by_cases hHit : expandHit mask w h bw cx cy = true
    · rw [if_pos hHit]
      exact ⟨iff_of_true rfl (hiff.mp hHit),
        iff_of_false one_ne_zero (not_not_intro (hiff.mp hHit))⟩
    · rw [if_neg hHit]
      have hnear : ¬ foregroundNear mask w h bw cx cy := fun hc => hHit (hiff.mpr hc)
      exact ⟨iff_of_false zero_ne_one hnear, iff_of_true rfl hnear⟩
  · decide

unseal Rat.add Rat.mul Rat.sub Rat.inv in
/-- C1 witness: on the 3 x 3 center-only mask with border_width 1, the cell
(0, 1) is within distance 1 of the foreground center, and the theorem yields
output value 1.0 there. -/
theorem expand_native_euclidean_disk_witness :
    (0 : ℤ) < 3 ∧
    (expand_mask_native mask3 (fun _ => 0) 3 3 1).2 ((1 * 3 + 0 : ℤ)).toNat = 1 :=
  ⟨by decide, (expand_native_euclidean_disk.1 mask3 (fun _ => 0) 3 3 1 0 1 (by decide)
    (by decide) (by decide) (by decide) (by decide) (by decide) (by decide)).1.mpr
    (by decide)⟩

unseal Rat.add Rat.mul Rat.sub Rat.inv in
/-- C1 counterexample: the ios copy of expand_mask_native computes target
coordinates from the flat offset (target_idx / width, target_idx % width),
so its kernel wraps around row ends.  On a 2 x 2 grid whose only foreground
cell is (0, 1), with border_width 1, it writes 1.0 to cell (1, 0) although
no foreground cell lies within Euclidean distance 1 of that cell, refuting
the claimed characterization for the ios implementation. -/
theorem expand_ios_not_euclidean_disk_cx :
    expand_mask_ios [0, 0, 9 / 10, 0] [0, 0, 0, 0] 2 2 1 true =
      some (.SUCCESS, [1, 1, 1, 1]) ∧
    ¬ foregroundNear (fun i => [0, 0, (9 : ℚ) / 10, 0].getD i 0) 2 2 1 1 0 := by
  constructor
  · decide
  · decide

lemma memcpyN_full (dst src : List ℚ) (n : ℤ)
    (hd : (dst.length : ℤ) = n) (hs : (src.length : ℤ) = n) :
    memcpyN dst src n = some src := by
  unfold memcpyN
  rw [if_pos ⟨by omega, by omega, by omega⟩]
  have h1 : src.take n.toNat = src := List.take_of_length_le (by omega)
  have h2 : dst.drop n.toNat = [] := List.drop_eq_nil_of_le (by omega)
  rw [h1, h2, List.append_nil]

/-- C6 (amended): with border_width = 0 the src/src/native expand_mask_native
returns SUCCESS and writes the thresholded binary mask (1.0 where the mask
value exceeds 0.5, else 0.0), while the ios copy instead returns SUCCESS and
copies the raw mask values into the output unchanged. -/
theorem expand_bw0_thresholded :
    (∀ (mask output : ℕ → ℚ) (w h : ℤ) (i : ℕ), 0 < w → 0 < h → (i : ℤ) < w * h →
        (expand_mask_native mask output w h 0).1 = .SUCCESS ∧
        (expand_mask_native mask output w h 0).2 i =
          (if THRESHOLD < mask i then 1 else 0)) ∧
    (∀ (mask output : List ℚ) (w h : ℤ), 0 < w → 0 < h →
        (mask.length : ℤ) = w * h → (output.length : ℤ) = w * h →
        expand_mask_ios mask output w h 0 true = some (.SUCCESS, mask)) := by
  constructor
  · intro mask output w h i hw hh hi
    unfold expand_mask_native
    rw [if_neg (by omega : ¬ (w ≤ 0 ∨ h ≤ 0 ∨ (0 : ℤ) < 0))]
    refine ⟨rfl, ?_⟩
    simp only
    rw [if_pos hi]
    have hcx0 : 0 ≤ (i : ℤ) % w := Int.emod_nonneg _ (by omega)
    have hcxw : (i : ℤ) % w < w := Int.emod_lt_of_pos _ hw
    have hcy0 : 0 ≤ (i : ℤ) / w := Int.ediv_nonneg (by omega) (by omega)
    have hdm := Int.ediv_add_emod (i : ℤ) w
    have hcyh : (i : ℤ) / w < h := by
      by_contra hc
      push_neg at hc
      have h1 : h * w ≤ ((i : ℤ) / w) * w := mul_le_mul_of_nonneg_right hc (by omega)
      nlinarith [h1, hdm, hcx0, hi]
    have hiff :=
      (expandHit_iff_near mask w h 0 ((i : ℤ) % w) ((i : ℤ) / w) hw hh le_rfl hcx0 hcxw
        hcy0 hcyh).trans
        (foregroundNear_zero mask w h ((i : ℤ) % w) ((i : ℤ) / w) hcx0 hcxw hcy0 hcyh)
    have hmi : mget mask w ((i : ℤ) % w) ((i : ℤ) / w) = mask i := by
      unfold mget
      have h3 : (i : ℤ) / w * w + (i : ℤ) % w = (i : ℤ) := by linear_combination hdm
      rw [h3]
      congr 1
    rw [hmi] at hiff
    by_cases hHit : expandHit mask w h 0 ((i : ℤ) % w) ((i : ℤ) / w) = true
    · rw [if_pos hHit, if_pos (hiff.mp hHit)]
    · rw [if_neg hHit, if_neg (fun hc => hHit (hiff.mpr hc))]
  · intro mask output w h hw hh hm ho
    unfold expand_mask_ios
    rw [if_neg (by omega : ¬ (w ≤ 0 ∨ h ≤ 0 ∨ (0 : ℤ) < 0))]
    rw [if_pos rfl, memcpyN_full output mask (w * h) (by omega) (by omega)]
    rfl

unseal Rat.add Rat.mul Rat.sub Rat.inv in
/-- C6 witness: a 1 x 1 foreground mask is thresholded to 1.0 by the
src/src/native copy at border_width 0, and copied verbatim by the ios
copy. -/
theorem expand_bw0_thresholded_witness :
    ((0 : ℤ) < 1) ∧
    (expand_mask_native (fun _ => 1) (fun _ => 0) 1 1 0).2 0 = 1 ∧
    expand_mask_ios [1] [0] 1 1 0 true = some (.SUCCESS, [1]) := by
  refine ⟨by decide, ?_, ?_⟩
  · rw [(expand_bw0_thresholded.1 (fun _ => 1) (fun _ => 0) 1 1 0 (by decide) (by decide)
      (by decide)).2]
    decide
  · exact expand_bw0_thresholded.2 [1] [0] 1 1 (by decide) (by decide) (by decide) (by decide)

unseal Rat.add Rat.mul Rat.sub Rat.inv in
/-- C6 counterexample: the ios copy of expand_mask_native with
border_width = 0 memcpys the raw mask into the output: on the 1 x 1 mask
with value 3/10 it returns 3/10, not the thresholded value 0.0 required by
the claim (3/10 is not above the 0.5 threshold, and is nonzero). -/
theorem expand_ios_bw0_raw_copy_cx :
    expand_mask_ios [3 / 10] [0] 1 1 0 true = some (.SUCCESS, [3 / 10]) ∧
    ((3 : ℚ) / 10 ≠ 0) ∧ ¬ THRESHOLD < (3 : ℚ) / 10 :=
  ⟨by decide, by decide, by decide⟩

/-!
Claim theorems for the smoothing kernel.
-/

lemma windowSamples_zero_one (v : ℤ → ℚ) (limit : ℤ) (hl : 2 ≤ limit) :
    windowSamples v 0 1 limit = [v 0, v 1] := by
  unfold windowSamples
  have h1 : intRange (0 - 1) (0 + 1 + 1) = [-1, 0, 1] := by decide
  rw [h1]
  have e1 : (if 0 ≤ (-1 : ℤ) ∧ -1 < limit then some (v (-1)) else none) = none :=
    if_neg (by omega)
  have e2 : (if 0 ≤ (0 : ℤ) ∧ 0 < limit then some (v 0) else none) = some (v 0) :=
    if_pos ⟨by omega, by omega⟩
  have e3 : (if 0 ≤ (1 : ℤ) ∧ 1 < limit then some (v 1) else none) = some (v 1) :=
    if_pos ⟨by omega, by omega⟩
  simp only [List.filterMap_cons, List.filterMap_nil]
  rw [e1, e2, e3]

lemma boxAvg_zero_one (v : ℤ → ℚ) (limit : ℤ) (hl : 2 ≤ limit) :
    boxAvg v 0 1 limit = (v 0 + v 1) / 2 := by
  unfold boxAvg
  rw [windowSamples_zero_one v limit hl]
  simp [List.sum_cons, List.sum_nil]

/-- C7: smooth_mask_native with kernel size 3 on a grid with width and
height at least 2 returns SUCCESS, and its output at the corner cell (0, 0)
is the arithmetic mean of the in-bounds 2 x 2 neighborhood of that corner -
each pass divides by the actual number of in-bounds samples, with no
zero-padding. -/
theorem smooth_corner_mean (mask output : ℕ → ℚ) (w h : ℤ) (hw : 2 ≤ w) (hh : 2 ≤ h) :
    (smooth_mask_native mask output w h 3 true).1 = .SUCCESS ∧
    (smooth_mask_native mask output w h 3 true).2 0 =
      (mget mask w 0 0 + mget mask w 1 0 + mget mask w 0 1 + mget mask w 1 1) / 4 := by
  unfold smooth_mask_native
  rw [if_neg (by omega : ¬ (w ≤ 0 ∨ h ≤ 0 ∨ (3 : ℤ) ≤ 0)),
    if_neg (by omega : ¬ (3 : ℤ) ≤ 1),
    if_neg (fun hc => Bool.noConfusion hc : ¬ true = false)]
  refine ⟨rfl, ?_⟩
  simp only
  have hc0 : ((0 : ℕ) : ℤ) = 0 := by norm_num
  rw [hc0, if_pos (by nlinarith : (0 : ℤ) < w * h), Int.zero_emod, Int.zero_ediv,
    show (3 : ℤ) / 2 = 1 from by decide]
  unfold vPass
  rw [boxAvg_zero_one (fun ny => hPass mask w 1 0 ny) h hh]
  unfold hPass
  rw [boxAvg_zero_one (fun nx => mget mask w nx 0) w hw,
    boxAvg_zero_one (fun nx => mget mask w nx 1) w hw]
  ring

/-- Concrete 2 x 2 mask grid with values 1, 2, 3, 4 in row-major order. -/
def m4grid : ℕ → ℚ := fun i => if i = 0 then 1 else if i = 1 then 2 else if i = 2 then 3 else 4

unseal Rat.add Rat.mul Rat.sub Rat.inv in
/-- C7 witness: on the concrete 2 x 2 grid 1, 2, 3, 4 the smoothed corner is
(1 + 2 + 3 + 4) / 4 = 5/2. -/
theorem smooth_corner_mean_witness :
    ((2 : ℤ) ≤ 2) ∧
    (smooth_mask_native m4grid (fun _ => 0) 2 2 3 true).2 0 = 5 / 2 :=
  ⟨by decide, by
    rw [(smooth_corner_mean m4grid (fun _ => 0) 2 2 (by decide) (by decide)).2]
    decide⟩

/-!
Claim theorem for degenerate-grid memory safety.
-/

unseal Rat.add Rat.mul Rat.sub Rat.inv in
/-- C8: on the degenerate 1 x 3 grid with an all-background mask and
border_width 4, the iterative branch of the ios expand_mask_native reads the
scratch buffer outside its 3 cells (the left-column handler reads
temp_buffer[left_idx + width + 1] = temp_buffer[3], and the right-column
handler reads temp_buffer[right_idx - width - 1] = temp_buffer[-1]); the
checked model therefore aborts with none instead of completing. -/
theorem expand_ios_oob_on_degenerate :
    expand_mask_ios [0, 0, 0] [0, 0, 0] 1 3 4 true = none := by
  decide

/-!
Helper lemmas for the allocation-failure claim: the first pass of the
iterative branch of the ios expand_mask_native turns the zeroed output into
the thresholded mask before the scratch allocation is attempted.
-/

/-- Thresholding of one mask value, as written by the first pass of the
iterative branch. -/
def thr (v : ℚ) : ℚ := if THRESHOLD < v then 1 else 0

lemma set_append_len {α : Type} (l1 l2 : List α) (v : α) :
    (l1 ++ l2).set l1.length v = l1 ++ l2.set 0 v := by
  induction l1 with
  | nil => rfl
  | cons x t ih =>
    simp only [List.cons_append, List.length_cons]
    show x :: ((t ++ l2).set t.length v) = x :: (t ++ l2.set 0 v)
    rw [ih]

lemma set_after_prefix (pre rest : List ℚ) (idx : ℕ) (v z : ℚ) (hidx : idx = pre.length) :
    (pre ++ z :: rest).set idx v = pre ++ v :: rest := by
  subst hidx
  rw [set_append_len]
  rfl

lemma take_succ_get (mask : List ℚ) (n : ℕ) (h : n < mask.length) :
    mask.take (n + 1) = mask.take n ++ [mask.get ⟨n, h⟩] := by
  rw [List.take_succ]
  congr
  rw [List.getElem?_eq_getElem h]
  rfl

lemma markFold_spec (mask : List ℚ) :
    ∀ (k : ℕ) (a : ℤ), 0 ≤ a → a.toNat + k = mask.length →
      (intRange a (a + (k : ℤ))).foldlM (markStep mask)
        ((mask.take a.toNat).map thr ++ List.replicate k 0) =
      some (mask.map thr) := by
  intro k
  induction k with
  | zero =>
    intro a ha hlen
    rw [intRange_eq_nil (by omega), List.foldlM_nil, List.replicate_zero, List.append_nil,
      show a.toNat = mask.length from by omega, List.take_length]
    rfl
  | succ k ih =>
    intro a ha hlen
    rw [intRange_eq_cons (by omega), List.foldlM_cons,
      show a + ((k + 1 : ℕ) : ℤ) = (a + 1) + (k : ℤ) from by push_cast; ring]
    have hpre : ((mask.take a.toNat).map thr).length = a.toNat := by
      rw [List.length_map, List.length_take]
      omega
    have hsl : ((mask.take a.toNat).map thr ++ List.replicate (k + 1) (0 : ℚ)).length =
        mask.length := by
      rw [List.length_append, hpre, List.length_replicate]
      omega
    have hget : lgetI mask a = some (mask.get ⟨a.toNat, by omega⟩) := by
      unfold lgetI
      rw [dif_pos ⟨ha, by omega⟩]
    unfold markStep
    rw [hget]
    simp only [Option.bind_eq_bind, Option.some_bind]
    have hnext : (mask.take (a + 1).toNat).map thr =
        (mask.take a.toNat).map thr ++ [thr (mask.get ⟨a.toNat, by omega⟩)] := by
      rw [show (a + 1).toNat = a.toNat + 1 from by omega,
        take_succ_get mask a.toNat (by omega), List.map_append]
      rfl
    by_cases hfg : THRESHOLD < mask.get ⟨a.toNat, by omega⟩
    · rw [if_pos hfg]
      have hls : lsetI ((mask.take a.toNat).map thr ++ List.replicate (k + 1) (0 : ℚ)) a 1 =
          some (((mask.take a.toNat).map thr ++
            List.replicate (k + 1) (0 : ℚ)).set a.toNat 1) := by
        unfold lsetI
        rw [if_pos ⟨ha, by rw [hsl]; omega⟩]
      rw [hls]
      simp only [Option.bind_eq_bind, Option.some_bind]
      have hone : thr (mask.get ⟨a.toNat, by omega⟩) = 1 := by
        unfold thr
        rw [if_pos hfg]
      have hset : ((mask.take a.toNat).map thr ++
          List.replicate (k + 1) (0 : ℚ)).set a.toNat 1 =
          (mask.take (a + 1).toNat).map thr ++ List.replicate k 0 := by
        rw [List.replicate_succ, set_after_prefix _ _ _ 1 0 hpre.symm, hnext, hone]
        simp
      rw [hset]
      exact ih (a + 1) (by omega) (by omega)
    · rw [if_neg hfg]
      simp only [Option.pure_def, Option.bind_eq_bind, Option.some_bind]
      have hzero : thr (mask.get ⟨a.toNat, by omega⟩) = 0 := by
        unfold thr
        rw [if_neg hfg]
      have hkeep : (mask.take a.toNat).map thr ++ List.replicate (k + 1) (0 : ℚ) =
          (mask.take (a + 1).toNat).map thr ++ List.replicate k 0 := by
        rw [hnext, hzero, List.replicate_succ]
        simp
      rw [hkeep]
      exact ih (a + 1) (by omega) (by omega)

lemma markForeground_spec (mask : List ℚ) (n : ℤ) (hn : (mask.length : ℤ) = n) :
    markForeground mask n (List.replicate n.toNat 0) = some (mask.map thr) := by
  unfold markForeground
  have h0 := markFold_spec mask n.toNat 0 (le_refl 0) (by omega)
  rw [show (0 : ℤ) + (n.toNat : ℤ) = n from by omega] at h0
  simpa using h0

unseal Rat.add Rat.mul Rat.sub Rat.inv in
/-- C9 counterexample: with border_width 4 on a 1 x 1 grid whose mask cell
is foreground, the ios expand_mask_native zeroes the output and marks the
foreground cell before attempting the scratch allocation; when that
allocation fails, it returns ERROR_MEMORY with the output cell already
overwritten (initial value 7 has become 1), refuting the claim that no
output cell has been written at that return. -/
theorem expand_ios_allocfail_writes_cx :
    expand_mask_ios [9 / 10] [7] 1 1 4 false = some (.ERROR_MEMORY, [1]) ∧
    (7 : ℚ) ≠ 1 :=
  ⟨by decide, by decide⟩

/-- C9 (amended): if the scratch allocation fails, the operation returns
ERROR_MEMORY; smooth_mask_native has written no cell of the caller output
buffer at that return, while the iterative branch of the ios
expand_mask_native has already zero-initialized the output and set its
foreground cells (mask value above 0.5) to 1.0, so on that return the
output holds exactly the thresholded mask. -/
theorem allocfail_behavior :
    (∀ (mask output : ℕ → ℚ) (w h k : ℤ), 0 < w → 0 < h → 2 ≤ k →
        smooth_mask_native mask output w h k false = (.ERROR_MEMORY, output)) ∧
    (∀ (mask output : List ℚ) (w h bw : ℤ), 0 < w → 0 < h → 3 < bw →
        (mask.length : ℤ) = w * h → (output.length : ℤ) = w * h →
        expand_mask_ios mask output w h bw false =
          some (.ERROR_MEMORY, mask.map thr)) := by
  constructor
  · intro mask output w h k hw hh hk
    unfold smooth_mask_native
    rw [if_neg (by omega : ¬ (w ≤ 0 ∨ h ≤ 0 ∨ k ≤ 0)), if_neg (by omega : ¬ k ≤ 1),
      if_pos rfl]
  · intro mask output w h bw hw hh hbw hm ho
    unfold expand_mask_ios
    rw [if_neg (by omega : ¬ (w ≤ 0 ∨ h ≤ 0 ∨ bw < 0)), if_neg (by omega : ¬ bw = 0)]
    have hms : memsetZero output (w * h) = some (List.replicate (w * h).toNat 0) := by
      unfold memsetZero
      rw [if_pos ⟨by omega, by omega⟩, List.drop_eq_nil_of_le (by omega), List.append_nil]
    rw [hms]
    simp only [Option.bind_eq_bind, Option.some_bind]
    rw [if_neg (by omega : ¬ bw ≤ 3), markForeground_spec mask (w * h) (by omega)]
    simp only [Option.bind_eq_bind, Option.some_bind]
    simp

unseal Rat.add Rat.mul Rat.sub Rat.inv in
/-- C9 witness: the amended theorem applied to the concrete 1 x 1 grid with
mask value 9/10 and border_width 4 under a failed allocation: the result is
ERROR_MEMORY with the output holding the thresholded mask value 1.0. -/
theorem allocfail_behavior_witness :
    ((3 : ℤ) < 4) ∧
    expand_mask_ios [9 / 10] [0] 1 1 4 false = some (.ERROR_MEMORY, [1]) :=
  ⟨by decide, by
    rw [allocfail_behavior.2 [9 / 10] [0] 1 1 4 (by decide) (by decide) (by decide)
      (by decide) (by decide)]
    decide⟩
